import Mathlib

/-!
Verification of the clancey conversation-indexing pipeline.

This file gives a shallow embedding of the core of `src/parser.ts` and
`src/db.ts` of the clancey repository and proves the behavioural claims
about chunking, indexing, date-range parsing and search post-processing.

Modelling conventions:
* JavaScript strings are modelled as `List Char` (`Str`); `String.length`
  of the source corresponds to `List.length` here.
* `String.prototype.trim()` is modelled by `trimStr` (drop whitespace from
  both ends), `\s` and the trimmed whitespace class by `isWs`.
* Impure inputs (the file list, `fs.stat` modification times, parse and
  embedding outcomes, the current wall-clock time) are passed explicitly
  through environment records; fallible calls return `Except`.
* JavaScript `Map` objects are modelled as association lists with
  insertion-order update (`mget` / `mset`), and the vector table as an
  optional list of records (`none` = table not created yet).
-/

set_option maxRecDepth 10000

namespace Clancey

/-! ### Definitions: the embedded program -/

/-- A JavaScript string, modelled as its list of characters. -/
abbrev Str := List Char

/-- Character data of a Lean string literal, used to write `Str` constants. -/
def str (s : String) : Str := s.data

/-- The whitespace class used by `trim` and by the regex class `\s`
(space, tab, line feed, carriage return, vertical tab, form feed). -/
def isWs (c : Char) : Bool :=
  c = ' ' || c = '\t' || c = '\n' || c = '\r' || c = Char.ofNat 11 || c = Char.ofNat 12

/-- Drop leading whitespace. -/
def trimLeftStr (l : Str) : Str := l.dropWhile isWs

/-- Drop trailing whitespace. -/
def trimRightStr (l : Str) : Str := (l.reverse.dropWhile isWs).reverse

/-- JavaScript `String.prototype.trim()`: drop whitespace from both ends. -/
def trimStr (l : Str) : Str := trimRightStr (trimLeftStr l)

/-- Decimal rendering of a natural number (template interpolation of an index). -/
def natStr (n : Nat) : Str := (Nat.repr n).data

/-- `Message.role` from `parser.ts`. -/
inductive Role where
  | user
  | assistant
deriving DecidableEq

/-- `Message` from `parser.ts`: role, extracted text content, timestamp string. -/
structure Message where
  role : Role
  content : Str
  timestamp : Str
deriving DecidableEq

/-- `Conversation` from `parser.ts`. -/
structure Conversation where
  sessionId : Str
  project : Str
  messages : List Message
  filePath : Str
  lastModified : Nat
deriving DecidableEq

/-- `ConversationChunk` from `parser.ts`. -/
structure ConversationChunk where
  id : Str
  sessionId : Str
  project : Str
  content : Str
  timestamp : Str
  chunkIndex : Nat
deriving DecidableEq

/-- The role label prepended to a message when rendering
(`message.role === "user" ? "User: " : "Assistant: "`). -/
def roleLabel : Role → Str
  | .user => str "User: "
  | .assistant => str "Assistant: "

/-- The rendered form of one message inside a chunk buffer:
`` `${prefix}${message.content}\n\n` `` in `chunkConversation`. -/
def renderMessage (m : Message) : Str :=
  roleLabel m.role ++ m.content ++ str "\n\n"

/-- Concatenation of the rendered forms of a list of messages. -/
def renderAll : List Message → Str
  | [] => []
  | m :: ms => renderMessage m ++ renderAll ms

/-- The loop of `chunkConversation` (`parser.ts`, lines 316-348), with the
mutable loop state (`currentChunk`, `chunkIndex`, `chunkTimestamp`) passed
explicitly.  The final non-empty buffer is flushed after the loop. -/
def chunkAux (sid proj : Str) (maxChunkSize : Nat) :
    List Message → Str → Nat → Str → List ConversationChunk
  | [], currentChunk, chunkIndex, chunkTimestamp =>
      if 0 < (trimStr currentChunk).length then
        [⟨sid ++ str "-" ++ natStr chunkIndex, sid, proj, trimStr currentChunk,
          chunkTimestamp, chunkIndex⟩]
      else []
  | m :: rest, currentChunk, chunkIndex, chunkTimestamp =>
      let messageText := renderMessage m
      if maxChunkSize < currentChunk.length + messageText.length ∧
          0 < currentChunk.length then
        ⟨sid ++ str "-" ++ natStr chunkIndex, sid, proj, trimStr currentChunk,
          chunkTimestamp, chunkIndex⟩
          :: chunkAux sid proj maxChunkSize rest messageText (chunkIndex + 1) m.timestamp
      else
        chunkAux sid proj maxChunkSize rest (currentChunk ++ messageText)
          chunkIndex chunkTimestamp

/-- `chunkConversation` from `parser.ts`.  The source initialises
`chunkTimestamp` to `conversation.messages[0]?.timestamp || new Date().toISOString()`;
the ambient wall-clock result is passed in as `nowIso`, and the `||` falls
back to it when the list is empty or the first timestamp is the (falsy)
empty string.  The source default `maxChunkSize = 2000` is passed
explicitly by the callers below. -/
def chunkConversation (conversation : Conversation) (maxChunkSize : Nat)
    (nowIso : Str) : List ConversationChunk :=
  let initTs : Str :=
    match conversation.messages with
    | [] => nowIso
    | m :: _ => if m.timestamp = [] then nowIso else m.timestamp
  chunkAux conversation.sessionId conversation.project maxChunkSize
    conversation.messages [] 0 initTs

/-- The chunk built from the block of messages `b` at position `i` with
timestamp `ts`. -/
def mkChunkOf (sid proj : Str) (i : Nat) (ts : Str) (b : List Message) :
    ConversationChunk :=
  ⟨sid ++ str "-" ++ natStr i, sid, proj, trimStr (renderAll b), ts, i⟩

/-- Timestamp of the first message of the first block of `bs` (used for the
chunk-timestamp bookkeeping of the loop). -/
def headTsOf (bs : List (List Message)) : Str :=
  match bs with
  | [] => []
  | b :: _ =>
    match b with
    | [] => []
    | m :: _ => m.timestamp

/-- Render a partition of the message list into the corresponding chunk
list, numbering blocks from `i` and stamping the first block with `ts`. -/
def blocksToChunks (sid proj : Str) : Nat → Str → List (List Message) →
    List ConversationChunk
  | _, _, [] => []
  | i, ts, b :: bs =>
    mkChunkOf sid proj i ts b :: blocksToChunks sid proj (i + 1) (headTsOf bs) bs

/-- The chunk flushed from the buffer holding the rendered block `b`:
trailing whitespace is trimmed (for a rendered buffer, `trim` and
trailing-only trimming agree, see `trimStr_renderAll_eq_trimRight`). -/
def mkChunkRight (sid proj : Str) (i : Nat) (ts : Str) (b : List Message) :
    ConversationChunk :=
  ⟨sid ++ str "-" ++ natStr i, sid, proj, trimRightStr (renderAll b), ts, i⟩

/-- Length of the longest rendered message of a conversation. -/
def maxRendered (msgs : List Message) : Nat :=
  msgs.foldr (fun m a => max (renderMessage m).length a) 0

/-- A single message whose rendered form exceeds the default threshold. -/
def mBig : Message := ⟨.user, List.replicate 2001 'a', str "t"⟩

/-- A conversation consisting of the single oversized message `mBig`. -/
def convBig : Conversation := ⟨str "s", str "p", [mBig], str "f", 0⟩

/-- Messages of the five-message split scenario: 600 characters of content
each, with decimal timestamps. -/
def mScn (i : Nat) : Message := ⟨.user, List.replicate 600 'a', natStr i⟩

/-- The five-message conversation of the split scenario: rendered lengths
608 each, so the buffer of messages 1-3 (1824 chars) cannot absorb
message 4 under the default threshold 2000 and is flushed. -/
def convScn : Conversation :=
  ⟨str "s", str "p", [mScn 1, mScn 2, mScn 3, mScn 4, mScn 5], str "f", 0⟩

/-- A conversation whose first message carries the empty timestamp string:
the source falls back to `new Date().toISOString()` for the initial chunk
timestamp. -/
def convEmptyTs : Conversation :=
  ⟨str "s", str "p", [⟨.user, str "hello there everyone", []⟩], str "f", 0⟩

/-- A small conversation used as a concrete witness input. -/
def convW : Conversation :=
  ⟨str "s", str "p", [⟨.user, str "hi", str "t"⟩], str "f", 0⟩

/-- One entry of the logging collaborator, with the interpolated data that
identifies the call site (`log` / `logError` in `db.ts`); free-text parts
of the messages are abstracted away. -/
inductive LogEntry where
  /-- `log("No new conversations to index")` -/
  | noNewMsg
  /-- `log("Indexing N conversations incrementally...")` -/
  | indexingMsg
  /-- `log("[i/N] Embedding k chunks from f...")` -/
  | embeddingMsg (fp : Str)
  /-- `log("[i/N] Saved k chunks")` -/
  | savedMsg (count : Nat)
  /-- `logError("Error indexing f", error)` -/
  | errMsg (fp : Str)
deriving DecidableEq

/-- A persisted record: a chunk spread together with its embedding vector
(`ChunkRecord` in `db.ts`). -/
structure ChunkRecord where
  chunk : ConversationChunk
  vector : List Int
deriving DecidableEq

/-- `Map.get`: first binding of the key in the association list. -/
def mget : List (Str × Nat) → Str → Option Nat
  | [], _ => none
  | (k, v) :: rest, fp => if k = fp then some v else mget rest fp

/-- `Map.set`: update the existing binding in place, else append. -/
def mset : List (Str × Nat) → Str → Nat → List (Str × Nat)
  | [], fp, t => [(fp, t)]
  | (k, v) :: rest, fp, t =>
    if k = fp then (k, t) :: rest else (k, v) :: mset rest fp t

/-- The impure collaborators of an indexing run: the enumerated
conversation files, their `fs.stat` modification times, the outcome of
`parseConversation` per file (exception / `null` / a conversation), the
outcome of the embedding call per text batch, and the ambient
`new Date().toISOString()` value. -/
structure IndexEnv where
  files : List Str
  mtimeMs : Str → Nat
  parseConv : Str → Except Str (Option Conversation)
  embedTexts : List Str → Except Str (List (List Int))
  nowIso : Str

/-- The mutable state of `ConversationDB`: the `indexedFiles` checkpoint
map, the `conversations` table (`none` until first created), and the log
sink. -/
structure DBState where
  checkpoint : List (Str × Nat)
  table : Option (List ChunkRecord)
  logs : List LogEntry
deriving DecidableEq

/-- The skip test of the first phase of `indexAll`
(`!force && lastIndexed && lastIndexed >= stat.mtimeMs`): note that a
recorded value of `0` is falsy in JavaScript, so it never causes a
skip. -/
def skipFile (force : Bool) (lastIndexed : Option Nat) (mtime : Nat) : Bool :=
  !force &&
    (match lastIndexed with
     | none => false
     | some t => decide (t ≠ 0) && decide (mtime ≤ t))

/-- Phase one of `indexAll`: the files selected for processing, paired
with the modification time captured by `fs.stat` during selection. -/
def filesToIndex (env : IndexEnv) (checkpoint : List (Str × Nat))
    (force : Bool) : List (Str × Nat) :=
  (env.files.filter
    (fun fp => !(skipFile force (mget checkpoint fp) (env.mtimeMs fp)))).map
    (fun fp => (fp, env.mtimeMs fp))

/-- `chunks.map((chunk, j) => ({...chunk, vector: embeddings[j]}))`: pair
each chunk with its embedding; a missing embedding (`embeddings[j]`
`undefined`) is modelled by the empty vector. -/
def mkRecords : List ConversationChunk → List (List Int) → List ChunkRecord
  | [], _ => []
  | c :: cs, [] => ⟨c, []⟩ :: mkRecords cs []
  | c :: cs, v :: vs => ⟨c, v⟩ :: mkRecords cs vs

/-- Replace-then-append of a session's records
(`delete sessionId = ...` followed by `add`), or `createTable` when the
table does not exist yet. -/
def replaceSession (table : Option (List ChunkRecord)) (sid : Str)
    (records : List ChunkRecord) : Option (List ChunkRecord) :=
  match table with
  | some tbl => some ((tbl.filter (fun r => r.chunk.sessionId ≠ sid)) ++ records)
  | none => some records

/-- The body of the per-file loop of `indexAll` (`db.ts`, lines 186-235),
acting on the accumulator `((processed, added), state)`.  The `try`/`catch`
around the body is realised by the `Except` cases of the parse and embed
outcomes. -/
def processFile (env : IndexEnv) (acc : (Nat × Nat) × DBState)
    (fm : Str × Nat) : (Nat × Nat) × DBState :=
  match env.parseConv fm.1 with
  | .error _ =>
    ((acc.1.1 + 1, acc.1.2),
      { acc.2 with logs := acc.2.logs ++ [.errMsg fm.1] })
  | .ok none => ((acc.1.1 + 1, acc.1.2), acc.2)
  | .ok (some conversation) =>
    let chunks := chunkConversation conversation 2000 env.nowIso
    if chunks = [] then ((acc.1.1 + 1, acc.1.2), acc.2)
    else
      match env.embedTexts (chunks.map (fun c => c.content)) with
      | .error _ =>
        ((acc.1.1 + 1, acc.1.2),
          { acc.2 with logs :=
              (acc.2.logs ++ [.embeddingMsg fm.1]) ++ [.errMsg fm.1] })
      | .ok embeddings =>
        let records := mkRecords chunks embeddings
        ((acc.1.1 + 1, acc.1.2 + records.length),
          { checkpoint := mset acc.2.checkpoint fm.1 fm.2,
            table := replaceSession acc.2.table conversation.sessionId records,
            logs := (acc.2.logs ++ [.embeddingMsg fm.1]) ++
              [.savedMsg records.length] })

/-- `indexAll` (`db.ts`, lines 157-238): select the files to index, then
process them one at a time, returning `{processed, added}` and the final
state. -/
def indexAll (env : IndexEnv) (st : DBState) (force : Bool) :
    (Nat × Nat) × DBState :=
  match filesToIndex env st.checkpoint force with
  | [] => ((0, 0), { st with logs := st.logs ++ [.noNewMsg] })
  | f :: fs =>
    (f :: fs).foldl (processFile env)
      ((0, 0), { st with logs := st.logs ++ [.indexingMsg] })

/-- `indexFile` (`db.ts`, lines 240-279): the single-file entry point used
by the watch loop.  Every outcome — including a parse exception from a
missing or unreadable file — returns normally with `{processed: 1, added}`;
the checkpoint entry is taken from `conversation.lastModified`. -/
def indexFile (env : IndexEnv) (st : DBState) (fp : Str) :
    (Nat × Nat) × DBState :=
  match env.parseConv fp with
  | .error _ => ((1, 0), { st with logs := st.logs ++ [.errMsg fp] })
  | .ok none => ((1, 0), st)
  | .ok (some conversation) =>
    let chunks := chunkConversation conversation 2000 env.nowIso
    if chunks = [] then ((1, 0), st)
    else
      match env.embedTexts (chunks.map (fun c => c.content)) with
      | .error _ => ((1, 0), { st with logs := st.logs ++ [.errMsg fp] })
      | .ok embeddings =>
        let records := mkRecords chunks embeddings
        ((1, records.length),
          { checkpoint := mset st.checkpoint fp conversation.lastModified,
            table := replaceSession st.table conversation.sessionId records,
            logs := st.logs })

/-- The per-file step of `indexAll` fails on `fp`: the parse raised, or
the embedding call over the file's chunk texts raised. -/
def failsAt (env : IndexEnv) (fp : Str) : Prop :=
  (∃ e, env.parseConv fp = .error e) ∨
  (∃ conversation, env.parseConv fp = .ok (some conversation) ∧
    chunkConversation conversation 2000 env.nowIso ≠ [] ∧
    ∃ e, env.embedTexts ((chunkConversation conversation 2000 env.nowIso).map
      (fun c => c.content)) = .error e)

/-- Environment with a single file whose parse raises. -/
def envFail : IndexEnv :=
  ⟨[str "a"], fun _ => 5, fun _ => .error (str "boom"), fun _ => .ok [],
    str "now"⟩

/-- Environment with a single file that parses to `null`
(zero qualifying messages). -/
def envNull : IndexEnv :=
  ⟨[str "a"], fun _ => 5, fun _ => .ok none, fun _ => .ok [], str "now"⟩

/-- The empty database state. -/
def st0 : DBState := ⟨[], none, []⟩

/-- Environment for the checkpoint-zero counterexample: one file whose
modification time is `0`. -/
def envZero : IndexEnv :=
  ⟨[str "a"], fun _ => 0, fun _ => .ok none, fun _ => .ok [], str "now"⟩

/-- State whose checkpoint records time `0` for that file. -/
def stZero : DBState := ⟨[(str "a", 0)], none, []⟩

/-- The calendar operations used by `parseDateRange` (`startOfDay`,
`endOfDay`, `setDate(getDate() - n)`, `setMonth(getMonth() - n)`), left
abstract over timestamps modelled as integers (epoch milliseconds). -/
structure DateOps where
  startOfDay : Int → Int
  endOfDay : Int → Int
  subDays : Int → Nat → Int
  subMonths : Int → Nat → Int

/-- `String.prototype.toLowerCase()`, characterwise (ASCII case folding,
which covers every recognised token). -/
def toLowerStr (s : Str) : Str := s.map Char.toLower

/-- The digit class `\d` of the regex: the characters `0`-`9`. -/
def isDigitCh (c : Char) : Bool := (str "0123456789").contains c

/-- `parseInt(digits, 10)` on a non-empty digit string. -/
def digitsToNat (l : Str) : Nat :=
  l.foldl (fun a c => a * 10 + (c.toNat - '0'.toNat)) 0

/-- Consume a (lowercase) literal case-insensitively from the front of a
string, returning the remainder. -/
def stripLitCI : Str → Str → Option Str
  | [], s => some s
  | _ :: _, [] => none
  | c :: cs, x :: xs => if Char.toLower x = c then stripLitCI cs xs else none

/-- One anchored attempt of the regex `last\s*(\d+)\s*days?` (the optional
`s` constrains nothing): literal `last`, optional whitespace, at least one
digit (maximal munch), optional whitespace, literal `day`; returns the
captured number. -/
def matchDaysAt (s : Str) : Option Nat :=
  match stripLitCI (str "last") s with
  | none => none
  | some s1 =>
    let s2 := s1.dropWhile isWs
    let digits := s2.takeWhile isDigitCh
    if digits = [] then none
    else
      match stripLitCI (str "day")
          ((s2.dropWhile isDigitCh).dropWhile isWs) with
      | none => none
      | some _ => some (digitsToNat digits)

/-- `dateRange.match(/last\s*(\d+)\s*days?/i)`: the regex engine tries the
anchored match at every start position and returns the first capture. -/
def findDaysMatch : Str → Option Nat
  | [] => none
  | c :: t =>
    match matchDaysAt (c :: t) with
    | some n => some n
    | none => findDaysMatch t

/-- `parseDateRange` (`db.ts`, lines 39-78): switch on the lowercased
token, then try the "last N days" regex on the original string; `null`
when nothing matches. -/
def parseDateRange (ops : DateOps) (now : Int) (dateRange : Str) :
    Option (Int × Int) :=
  let lower := toLowerStr dateRange
  if lower = str "today" then some (ops.startOfDay now, ops.endOfDay now)
  else if lower = str "yesterday" then
    some (ops.startOfDay (ops.subDays now 1), ops.endOfDay (ops.subDays now 1))
  else if lower = str "last_week" ∨ lower = str "last week" ∨
      lower = str "week" then
    some (ops.startOfDay (ops.subDays now 7), ops.endOfDay now)
  else if lower = str "last_month" ∨ lower = str "last month" ∨
      lower = str "month" then
    some (ops.startOfDay (ops.subMonths now 1), ops.endOfDay now)
  else
    match findDaysMatch dateRange with
    | some days => some (ops.startOfDay (ops.subDays now days), ops.endOfDay now)
    | none => none

/-- A raw row returned by the nearest-neighbour query, in similarity
order; `distance` is the `_distance` score. -/
structure Row where
  content : Str
  project : Str
  sessionId : Str
  timestamp : Str
  distance : Int
deriving DecidableEq

/-- The `sortBy` search option. -/
inductive SortBy where
  | relevance
  | recency
deriving DecidableEq

/-- `SearchOptions` of `db.ts` after applying the source defaults
(`limit = 5`, `sortBy = "relevance"`); absent optional strings are `none`
and the empty string is falsy where the source tests truthiness. -/
structure SearchOptions where
  limit : Nat
  project : Option Str
  dateRange : Option Str
  sortBy : SortBy
deriving DecidableEq

/-- `SearchResult` of `db.ts`. -/
structure SearchResult where
  content : Str
  project : Str
  sessionId : Str
  timestamp : Str
  score : Int
deriving DecidableEq

/-- The impure collaborators of `search`: `new Date(string).getTime()` as
an abstract timestamp valuation, and the calendar operations with the
current moment for `parseDateRange`. -/
structure SearchEnv where
  dateValue : Str → Int
  ops : DateOps
  now : Int

/-- `String.prototype.includes`: substring test. -/
def containsSub (need : Str) : Str → Bool
  | [] => need.isEmpty
  | c :: t => need.isPrefixOf (c :: t) || containsSub need t

/-- Projection of a raw row to the returned search result. -/
def toResult (r : Row) : SearchResult :=
  ⟨r.content, r.project, r.sessionId, r.timestamp, r.distance⟩

/-- The timestamp key used by the recency comparator
(`new Date(r.timestamp).getTime()`). -/
def tsKey (env : SearchEnv) (r : Row) : Int := env.dateValue r.timestamp

/-- The recency re-sort (`filtered.sort((a, b) => tsB - tsA)`): a stable
sort placing larger timestamps first, as JavaScript's stable
`Array.prototype.sort` does with that comparator. -/
def sortRecency (env : SearchEnv) (l : List Row) : List Row :=
  l.mergeSort (fun a b => decide (tsKey env b ≤ tsKey env a))

/-- The project filter of `search` (`if (project) filtered =
filtered.filter(r => r.project.includes(project))`): skipped when absent
or the falsy empty string. -/
def projectFiltered (rows : List Row) (project : Option Str) : List Row :=
  match project with
  | some p =>
    if p = [] then rows else rows.filter (fun r => containsSub p r.project)
  | none => rows

/-- The date-range filter of `search`: skipped when the option is absent,
the falsy empty string, or unrecognised by `parseDateRange`; otherwise
keeps rows whose timestamp lies in the resolved closed interval. -/
def dateFiltered (env : SearchEnv) (rows : List Row)
    (dateRange : Option Str) : List Row :=
  match dateRange with
  | some dr =>
    if dr = [] then rows
    else
      match parseDateRange env.ops env.now dr with
      | some se =>
        rows.filter (fun r =>
          decide (se.1 ≤ env.dateValue r.timestamp) &&
            decide (env.dateValue r.timestamp ≤ se.2))
      | none => rows
  | none => rows

/-- The filtering stage of `search` (`db.ts`, lines 295-311): project
filter, then date-range filter. -/
def searchFiltered (env : SearchEnv) (rows : List Row)
    (opts : SearchOptions) : List Row :=
  dateFiltered env (projectFiltered rows opts.project) opts.dateRange

/-- `search` (`db.ts`, lines 281-329) from the raw nearest-neighbour rows
onward: filter, optionally re-sort by recency, truncate to the limit, and
project to search results. -/
def search (env : SearchEnv) (rows : List Row) (opts : SearchOptions) :
    List SearchResult :=
  let filtered := searchFiltered env rows opts
  let sorted :=
    match opts.sortBy with
    | .recency => sortRecency env filtered
    | .relevance => filtered
  (sorted.take opts.limit).map toResult

/-- The environment of the recency scenario: a timestamp string's epoch
value is its length, so `"22"` is newer than `"1"`. -/
def envScn7 : SearchEnv :=
  ⟨fun s => (s.length : Int), ⟨id, id, fun n _ => n, fun n _ => n⟩, 0⟩

/-- The best-matching but oldest row, first in similarity order. -/
def rowOld : Row := ⟨str "old", str "p", str "so", str "1", 0⟩

/-- The newer row with a worse similarity score. -/
def rowNew : Row := ⟨str "new", str "p", str "sn", str "22", 5⟩

/-- Recency options with the default limit. -/
def optsRec : SearchOptions := ⟨5, none, none, .recency⟩

/-- The language of the `last N days` regex (substring match,
case-insensitive, `N` any digit run — including `0`): the string contains
`last`, optional whitespace, at least one digit, optional whitespace and
`day` somewhere. -/
def daysPatternProp (s : Str) : Prop :=
  ∃ pre l4 w1 ds w2 d3 post,
    s = pre ++ (l4 ++ (w1 ++ (ds ++ (w2 ++ (d3 ++ post))))) ∧
    toLowerStr l4 = str "last" ∧ (∀ c ∈ w1, isWs c = true) ∧
    ds ≠ [] ∧ (∀ c ∈ ds, isDigitCh c = true) ∧
    (∀ c ∈ w2, isWs c = true) ∧ toLowerStr d3 = str "day"

/-- The literal tokens of the `switch` in `parseDateRange` (compared
against the lowercased input). -/
def dateTokens : List Str :=
  [str "today", str "yesterday", str "last_week", str "last week",
   str "week", str "last_month", str "last month", str "month"]

/-! ### Theorems -/

theorem trimRightStr_length_le (l : Str) : (trimRightStr l).length ≤ l.length := by
  have h := (@List.dropWhile_sublist Char l.reverse isWs).length_le
  simpa [trimRightStr] using h

theorem trimStr_length_le (l : Str) : (trimStr l).length ≤ l.length :=
  le_trans (trimRightStr_length_le _)
    (by simpa [trimLeftStr] using (@List.dropWhile_sublist Char l isWs).length_le)

theorem trimLeftStr_cons_of_not_ws {c : Char} (l : Str) (h : isWs c = false) :
    trimLeftStr (c :: l) = c :: l := by
  simp [trimLeftStr, List.dropWhile_cons, h]

theorem trimRightStr_ne_nil_of_mem {c : Char} {l : Str} (hc : c ∈ l)
    (h : isWs c = false) : trimRightStr l ≠ [] := by
  intro hnil
  have : l.reverse.dropWhile isWs = [] := by
    have := congrArg List.reverse hnil
    simpa [trimRightStr] using this
  have hall := List.dropWhile_eq_nil_iff.mp this
  have := hall c (List.mem_reverse.mpr hc)
  simp [h] at this

theorem trimStr_cons_pos {c : Char} (l : Str) (h : isWs c = false) :
    0 < (trimStr (c :: l)).length := by
  rw [trimStr, trimLeftStr_cons_of_not_ws l h]
  have hne : trimRightStr (c :: l) ≠ [] :=
    trimRightStr_ne_nil_of_mem (List.mem_cons_self c l) h
  exact List.length_pos.mpr hne

theorem renderMessage_length (m : Message) :
    (renderMessage m).length = (roleLabel m.role).length + m.content.length + 2 := by
  simp [renderMessage, str]
  omega

theorem roleLabel_user : roleLabel Role.user = 'U' :: str "ser: " := by decide

theorem roleLabel_assistant :
    roleLabel Role.assistant = 'A' :: str "ssistant: " := by decide

/-- The rendered form of a message starts with a non-whitespace character
(`'U'` or `'A'`). -/
theorem renderMessage_head (m : Message) :
    ∃ c t, renderMessage m = c :: t ∧ isWs c = false := by
  cases hr : m.role
  · refine ⟨'U', (str "ser: " ++ m.content) ++ str "\n\n", ?_, by decide⟩
    rw [renderMessage, hr, roleLabel_user]
    simp
  · refine ⟨'A', (str "ssistant: " ++ m.content) ++ str "\n\n", ?_, by decide⟩
    rw [renderMessage, hr, roleLabel_assistant]
    simp

theorem renderAll_append (xs ys : List Message) :
    renderAll (xs ++ ys) = renderAll xs ++ renderAll ys := by
  induction xs with
  | nil => simp [renderAll]
  | cons m ms ih => simp [renderAll, ih]

theorem renderAll_singleton (m : Message) : renderAll [m] = renderMessage m := by
  simp [renderAll]

theorem renderAll_cons_head {b : List Message} (hb : b ≠ []) :
    ∃ c t, renderAll b = c :: t ∧ isWs c = false := by
  cases b with
  | nil => exact absurd rfl hb
  | cons m ms =>
    obtain ⟨c, t, hct, hc⟩ := renderMessage_head m
    exact ⟨c, t ++ renderAll ms, by simp [renderAll, hct], hc⟩

theorem renderAll_length_pos {b : List Message} (hb : b ≠ []) :
    0 < (renderAll b).length := by
  obtain ⟨c, t, hct, _⟩ := renderAll_cons_head hb
  simp [hct]

theorem trimStr_renderAll_pos {b : List Message} (hb : b ≠ []) :
    0 < (trimStr (renderAll b)).length := by
  obtain ⟨c, t, hct, hc⟩ := renderAll_cons_head hb
  rw [hct]
  exact trimStr_cons_pos t hc

/-- On a buffer that starts with a non-whitespace character — as every
rendered buffer does — `trim` only removes trailing whitespace. -/
theorem trimStr_renderAll_eq_trimRight {b : List Message} (hb : b ≠ []) :
    trimStr (renderAll b) = trimRightStr (renderAll b) := by
  obtain ⟨c, t, hct, hc⟩ := renderAll_cons_head hb
  rw [hct, trimStr, trimLeftStr_cons_of_not_ws t hc]

theorem blocksToChunks_map_content (sid proj : Str) (i : Nat) (ts : Str)
    (bs : List (List Message)) :
    (blocksToChunks sid proj i ts bs).map (fun ch => ch.content) =
      bs.map (fun b => trimStr (renderAll b)) := by
  induction bs generalizing i ts with
  | nil => simp [blocksToChunks]
  | cons b bs ih => simp [blocksToChunks, mkChunkOf, ih]

theorem blocksToChunks_map_index (sid proj : Str) (i : Nat) (ts : Str)
    (bs : List (List Message)) :
    (blocksToChunks sid proj i ts bs).map (fun ch => ch.chunkIndex) =
      List.range' i bs.length := by
  induction bs generalizing i ts with
  | nil => simp [blocksToChunks]
  | cons b bs ih =>
    simp [blocksToChunks, mkChunkOf, ih, List.range'_succ]

/-- Core invariant of the chunking loop: running the loop on remaining
messages `msgs` with a buffer holding the rendered messages `B` produces
the chunks of a partition of `B ++ msgs` into consecutive non-empty blocks,
the first of which extends `B`. -/
theorem chunkAux_blocks (sid proj : Str) (mcs : Nat) :
    ∀ (msgs B : List Message) (idx : Nat) (ts : Str), B ≠ [] →
    ∃ blocks : List (List Message),
      blocks.flatten = B ++ msgs ∧
      (∀ b ∈ blocks, b ≠ []) ∧
      (∃ ext bs, blocks = (B ++ ext) :: bs) ∧
      chunkAux sid proj mcs msgs (renderAll B) idx ts =
        blocksToChunks sid proj idx ts blocks := by
  intro msgs
  induction msgs with
  | nil =>
    intro B idx ts hB
    refine ⟨[B], ?_, ?_, ?_, ?_⟩
    · simp
    · simpa using hB
    · exact ⟨[], [], by simp⟩
    · simp only [chunkAux, blocksToChunks, mkChunkOf]
      rw [if_pos (trimStr_renderAll_pos hB)]
  | cons m rest ih =>
    intro B idx ts hB
    by_cases hsplit : mcs < (renderAll B).length + (renderMessage m).length
    · -- flush the buffer, start a new one with `m`
      obtain ⟨blocks', hjoin, hne, ⟨ext, bs, hhead⟩, heq⟩ :=
        ih [m] (idx + 1) m.timestamp (by simp)
      refine ⟨B :: blocks', ?_, ?_, ?_, ?_⟩
      · simp [hjoin]
      · intro b hb
        rcases List.mem_cons.mp hb with h | h
        · exact h ▸ hB
        · exact hne b h
      · exact ⟨[], blocks', by simp⟩
      · have hcond : mcs < (renderAll B).length + (renderMessage m).length ∧
            0 < (renderAll B).length := ⟨hsplit, renderAll_length_pos hB⟩
        have hts : headTsOf blocks' = m.timestamp := by
          rw [hhead]; simp [headTsOf]
        rw [renderAll_singleton] at heq
        simp only [chunkAux, if_pos hcond]
        rw [blocksToChunks, hts, ← heq]
        simp [mkChunkOf]
    · -- append `m` to the running buffer
      obtain ⟨blocks', hjoin, hne, ⟨ext, bs, hhead⟩, heq⟩ :=
        ih (B ++ [m]) idx ts (by simp)
      refine ⟨blocks', by simpa using hjoin, hne, ⟨m :: ext, bs, by simpa using hhead⟩, ?_⟩
      have hcond : ¬(mcs < (renderAll B).length + (renderMessage m).length ∧
          0 < (renderAll B).length) := fun hc => hsplit hc.1
      rw [renderAll_append, renderAll_singleton] at heq
      simp only [chunkAux, if_neg hcond]
      exact heq

/-- Flush step: a non-empty buffer whose length plus the incoming rendered
message would exceed the threshold is emitted (trimmed of trailing
whitespace, stamped with the running chunk timestamp), and a fresh buffer
starts with the incoming message and its timestamp. -/
theorem chunkAux_flush_step (sid proj : Str) (mcs : Nat) {B : List Message}
    (m : Message) (rest : List Message) (idx : Nat) (ts : Str) (hB : B ≠ [])
    (h : mcs < (renderAll B).length + (renderMessage m).length) :
    chunkAux sid proj mcs (m :: rest) (renderAll B) idx ts =
      mkChunkRight sid proj idx ts B ::
        chunkAux sid proj mcs rest (renderMessage m) (idx + 1) m.timestamp := by
  simp only [chunkAux, if_pos (And.intro h (renderAll_length_pos hB))]
  rw [trimStr_renderAll_eq_trimRight hB]
  simp [mkChunkRight]

/-- Non-flush step: otherwise the rendered message is appended to the
running buffer and no chunk is emitted. -/
theorem chunkAux_append_step (sid proj : Str) (mcs : Nat) (m : Message)
    (rest : List Message) (buf : Str) (idx : Nat) (ts : Str)
    (h : ¬(mcs < buf.length + (renderMessage m).length ∧ 0 < buf.length)) :
    chunkAux sid proj mcs (m :: rest) buf idx ts =
      chunkAux sid proj mcs rest (buf ++ renderMessage m) idx ts := by
  simp only [chunkAux, if_neg h]

/-- Final step: after all messages, a buffer holding a non-empty rendered
block is flushed as the last chunk. -/
theorem chunkAux_final_flush (sid proj : Str) (mcs : Nat) {B : List Message}
    (idx : Nat) (ts : Str) (hB : B ≠ []) :
    chunkAux sid proj mcs [] (renderAll B) idx ts =
      [mkChunkRight sid proj idx ts B] := by
  simp only [chunkAux, if_pos (trimStr_renderAll_pos hB)]
  rw [trimStr_renderAll_eq_trimRight hB]
  simp [mkChunkRight]

theorem chunkAux_content_le (sid proj : Str) (mcs : Nat) :
    ∀ (msgs : List Message) (buf : Str) (idx : Nat) (ts : Str)
      (ch : ConversationChunk), ch ∈ chunkAux sid proj mcs msgs buf idx ts →
      ch.content.length ≤ max mcs (max (maxRendered msgs) buf.length) := by
  intro msgs
  induction msgs with
  | nil =>
    intro buf idx ts ch hch
    simp only [chunkAux] at hch
    split_ifs at hch with hpos
    · have hc : ch.content = trimStr buf := by
        rw [List.mem_singleton.mp hch]
      have := trimStr_length_le buf
      rw [hc]
      omega
    · simp at hch
  | cons m rest ih =>
    intro buf idx ts ch hch
    have hm : maxRendered (m :: rest) =
        max (renderMessage m).length (maxRendered rest) := rfl
    simp only [chunkAux] at hch
    split_ifs at hch with hcond
    · rcases List.mem_cons.mp hch with h | h
      · have hc : ch.content = trimStr buf := by rw [h]
        have := trimStr_length_le buf
        rw [hc]
        omega
      · have h2 := ih (renderMessage m) (idx + 1) m.timestamp ch h
        omega
    · have h2 := ih (buf ++ renderMessage m) idx ts ch hch
      have hlen : (buf ++ renderMessage m).length =
          buf.length + (renderMessage m).length := by simp
      rw [not_and_or] at hcond
      rcases hcond with h | h <;> omega

theorem trimRightStr_user_replicate (n : Nat) :
    trimRightStr ((str "User: " ++ List.replicate (n + 1) 'a') ++ str "\n\n") =
      str "User: " ++ List.replicate (n + 1) 'a' := by
  unfold trimRightStr
  rw [List.reverse_append, List.reverse_append]
  have h1 : (str "\n\n").reverse = '\n' :: ('\n' :: ([] : Str)) := by decide
  rw [h1, List.cons_append, List.cons_append, List.nil_append,
    List.dropWhile_cons, if_pos (show isWs '\n' = true from by decide),
    List.dropWhile_cons, if_pos (show isWs '\n' = true from by decide),
    List.reverse_replicate, List.replicate_succ,
    List.cons_append, List.dropWhile_cons,
    if_neg (show ¬isWs 'a' = true from by decide),
    ← List.cons_append, ← List.replicate_succ,
    List.reverse_append, List.reverse_reverse, List.reverse_replicate]

theorem chunkConversation_convBig :
    chunkConversation convBig 2000 (str "Z") =
      [mkChunkRight (str "s") (str "p") 0 (str "t") [mBig]] := by
  have hstep : chunkConversation convBig 2000 (str "Z") =
      chunkAux (str "s") (str "p") 2000 [] (renderAll [mBig]) 0 (str "t") := by
    rw [chunkConversation]
    show chunkAux (str "s") (str "p") 2000 [mBig] [] 0
        (if (str "t") = [] then str "Z" else str "t") = _
    rw [if_neg (show ¬(str "t") = [] from by decide)]
    rw [chunkAux_append_step _ _ _ _ _ _ _ _
      (by simp : ¬(2000 < ([] : Str).length + (renderMessage mBig).length ∧
        0 < ([] : Str).length))]
    rw [renderAll_singleton, List.nil_append]
  rw [hstep, chunkAux_final_flush _ _ _ _ _
    (show ([mBig] : List Message) ≠ [] from by simp)]

theorem convBig_content_length :
    (trimRightStr (renderAll [mBig])).length = 2007 := by
  have hr : renderAll [mBig] =
      (str "User: " ++ List.replicate (2000 + 1) 'a') ++ str "\n\n" := by
    rw [renderAll_singleton]
    rfl
  rw [hr, trimRightStr_user_replicate 2000, List.length_append,
    show (str "User: ").length = 6 from by decide, List.length_replicate]

theorem renderMessage_mScn_length (i : Nat) :
    (renderMessage (mScn i)).length = 608 := by
  rw [renderMessage_length,
    show (mScn i).role = Role.user from rfl,
    show (mScn i).content = List.replicate 600 'a' from rfl,
    show (roleLabel Role.user).length = 6 from by decide,
    List.length_replicate]

theorem renderAll_mScn13_length :
    (renderAll [mScn 1, mScn 2, mScn 3]).length = 1824 := by
  simp [renderAll, renderMessage_mScn_length]

theorem chunkConversation_convScn :
    chunkConversation convScn 2000 (str "Z") =
      [mkChunkRight (str "s") (str "p") 0 (natStr 1) [mScn 1, mScn 2, mScn 3],
       mkChunkRight (str "s") (str "p") 1 (natStr 4) [mScn 4, mScn 5]] := by
  rw [chunkConversation]
  show chunkAux (str "s") (str "p") 2000
      [mScn 1, mScn 2, mScn 3, mScn 4, mScn 5] [] 0
      (if natStr 1 = [] then str "Z" else natStr 1) = _
  rw [if_neg (show ¬natStr 1 = [] from by decide)]
  rw [chunkAux_append_step _ _ _ _ _ _ _ _ (by simp)]
  rw [List.nil_append]
  rw [chunkAux_append_step _ _ _ _ _ _ _ _ (by
    rw [renderMessage_mScn_length, renderMessage_mScn_length]
    omega)]
  rw [chunkAux_append_step _ _ _ _ _ _ _ _ (by
    simp only [List.length_append, renderMessage_mScn_length]
    omega)]
  rw [show ((renderMessage (mScn 1) ++ renderMessage (mScn 2)) ++
      renderMessage (mScn 3)) = renderAll [mScn 1, mScn 2, mScn 3] from by
    simp [renderAll]]
  rw [chunkAux_flush_step _ _ _ _ _ _ _ (by simp) (by
    rw [renderAll_mScn13_length, renderMessage_mScn_length]
    omega)]
  rw [chunkAux_append_step _ _ _ _ _ _ _ _ (by
    rw [renderMessage_mScn_length, renderMessage_mScn_length]
    omega)]
  rw [show (renderMessage (mScn 4) ++ renderMessage (mScn 5)) =
      renderAll [mScn 4, mScn 5] from by simp [renderAll]]
  rw [chunkAux_final_flush _ _ _ _ _ (by simp)]
  rfl

/-- Claim C3: chunking never splits a message across two segments.  The
chunk list of any conversation is the image of a partition of its message
list into consecutive non-empty blocks: block contents (trimmed
concatenations of the rendered messages, in order) are the segment
contents, so concatenating the segments recovers the rendered message
sequence modulo the whitespace trimmed at segment boundaries, segment
order matches message order, and the `chunkIndex` values are the dense
sequence `0, 1, 2, ...`. -/
theorem chunkConversation_no_message_split (conv : Conversation) (mcs : Nat)
    (nowIso : Str) :
    ∃ blocks : List (List Message),
      blocks.flatten = conv.messages ∧
      (∀ b ∈ blocks, b ≠ []) ∧
      (chunkConversation conv mcs nowIso).map (fun ch => ch.content) =
        blocks.map (fun b => trimStr (renderAll b)) ∧
      (chunkConversation conv mcs nowIso).map (fun ch => ch.chunkIndex) =
        List.range blocks.length := by
  rcases hmsgs : conv.messages with _ | ⟨m, ms⟩
  · refine ⟨[], by simp, by simp, ?_, ?_⟩ <;>
      simp [chunkConversation, hmsgs, chunkAux, trimStr, trimLeftStr, trimRightStr]
  · obtain ⟨blocks, hjoin, hne, ⟨ext, bs, hhead⟩, heq⟩ :=
      chunkAux_blocks conv.sessionId conv.project mcs ms [m] 0
        (if m.timestamp = [] then nowIso else m.timestamp) (by simp)
    have hstep : chunkConversation conv mcs nowIso =
        blocksToChunks conv.sessionId conv.project 0
          (if m.timestamp = [] then nowIso else m.timestamp) blocks := by
      rw [chunkConversation]
      simp only [hmsgs]
      rw [chunkAux_append_step _ _ _ _ _ _ _ _ (by simp)]
      rw [List.nil_append, ← renderAll_singleton]
      exact heq
    refine ⟨blocks, by simp [hjoin, hmsgs], hne, ?_, ?_⟩
    · rw [hstep, blocksToChunks_map_content]
    · rw [hstep, blocksToChunks_map_index, List.range_eq_range']

/-- Claim C6: before a message is appended, a non-empty buffer that would
overflow the threshold is flushed as a segment trimmed of trailing
whitespace carrying the running chunk timestamp (the timestamp of the
first message placed in that buffer), and a new buffer starts with the
current message and its timestamp; after all messages a non-empty buffer
is flushed as the final segment.  In the concrete five-message scenario at
the default threshold 2000 the split happens after message 3: exactly two
segments result, segment 0 holds messages 1-3 with message 1's timestamp,
segment 1 holds messages 4-5. -/
theorem chunkConversation_flush_semantics :
    (∀ (sid proj : Str) (mcs : Nat) (B : List Message) (m : Message)
      (rest : List Message) (idx : Nat) (ts : Str), B ≠ [] →
      mcs < (renderAll B).length + (renderMessage m).length →
      chunkAux sid proj mcs (m :: rest) (renderAll B) idx ts =
        mkChunkRight sid proj idx ts B ::
          chunkAux sid proj mcs rest (renderMessage m) (idx + 1) m.timestamp)
    ∧ (∀ (sid proj : Str) (mcs : Nat) (B : List Message) (idx : Nat)
      (ts : Str), B ≠ [] →
      chunkAux sid proj mcs [] (renderAll B) idx ts =
        [mkChunkRight sid proj idx ts B])
    ∧ chunkConversation convScn 2000 (str "Z") =
        [mkChunkRight (str "s") (str "p") 0 ((mScn 1).timestamp)
          [mScn 1, mScn 2, mScn 3],
         mkChunkRight (str "s") (str "p") 1 ((mScn 4).timestamp)
          [mScn 4, mScn 5]] :=
  ⟨fun sid proj mcs _ m rest idx ts hB h =>
    chunkAux_flush_step sid proj mcs m rest idx ts hB h,
   fun sid proj mcs _ idx ts hB =>
    chunkAux_final_flush sid proj mcs idx ts hB,
   chunkConversation_convScn⟩

/-- Witness for claim C6: the flush step applied to the concrete buffer
holding message 1 of the scenario with message 2 incoming at threshold 0. -/
theorem chunkConversation_flush_semantics_witness :
    chunkAux (str "s") (str "p") 0 [mScn 2] (renderAll [mScn 1]) 0
        (natStr 1) =
      mkChunkRight (str "s") (str "p") 0 (natStr 1) [mScn 1] ::
        chunkAux (str "s") (str "p") 0 [] (renderMessage (mScn 2)) 1
          ((mScn 2).timestamp) :=
  chunkConversation_flush_semantics.1 (str "s") (str "p") 0 [mScn 1] (mScn 2)
    [] 0 (natStr 1) (by simp)
    (by rw [renderAll_singleton, renderMessage_mScn_length,
          renderMessage_mScn_length]
        omega)

/-- Counterexample to claim C9 as stated: two invocations of
`chunkConversation` on the same conversation value at different wall-clock
times produce different segment lists when the first message's timestamp
is the empty (falsy) string, because `messages[0]?.timestamp || new
Date().toISOString()` then stamps the first segment with the current
time. -/
theorem chunkConversation_now_fallback_counterexample :
    chunkConversation convEmptyTs 2000 (str "X") ≠
      chunkConversation convEmptyTs 2000 (str "Y") := by decide

/-- Claim C9 (amended): `chunkConversation` is deterministic — independent
of the ambient wall-clock value — for every conversation that is empty or
whose first message has a non-empty timestamp string (the parsers only
produce non-empty timestamps).  Two invocations then yield identical
segment lists, with the same ids, contents, timestamps and chunkIndex
values. -/
theorem chunkConversation_deterministic (conv : Conversation) (mcs : Nat)
    (now1 now2 : Str)
    (h : ∀ m ms, conv.messages = m :: ms → m.timestamp ≠ []) :
    chunkConversation conv mcs now1 = chunkConversation conv mcs now2 := by
  rcases hmsgs : conv.messages with _ | ⟨m, ms⟩
  · simp [chunkConversation, hmsgs, chunkAux, trimStr, trimLeftStr, trimRightStr]
  · have hts : m.timestamp ≠ [] := h m ms hmsgs
    simp only [chunkConversation, hmsgs]
    rw [if_neg hts, if_neg hts]

/-- Witness for claim C9: determinism applied to the non-empty-timestamp
scenario conversation at two distinct wall-clock values. -/
theorem chunkConversation_deterministic_witness :
    chunkConversation convScn 2000 (str "X") =
      chunkConversation convScn 2000 (str "Y") :=
  chunkConversation_deterministic convScn 2000 (str "X") (str "Y")
    (fun m ms hm => by
      rw [show convScn.messages = [mScn 1, mScn 2, mScn 3, mScn 4, mScn 5]
          from rfl] at hm
      cases hm
      decide)

/-- Claim C10: the threshold is not a hard bound on segment length — a
single oversized rendered message is emitted intact, and `convBig`
concretely produces a segment of 2007 > 2000 characters; in general every
segment's content length is at most the maximum of the threshold and the
longest single rendered message. -/
theorem chunk_size_not_hard_bound :
    (∀ (conv : Conversation) (mcs : Nat) (nowIso : Str)
      (ch : ConversationChunk), ch ∈ chunkConversation conv mcs nowIso →
      ch.content.length ≤ max mcs (maxRendered conv.messages))
    ∧ (∃ ch ∈ chunkConversation convBig 2000 (str "Z"),
        2000 < ch.content.length) := by
  constructor
  · intro conv mcs nowIso ch hch
    rw [chunkConversation] at hch
    have h := chunkAux_content_le conv.sessionId conv.project mcs
      conv.messages [] 0 _ ch hch
    simpa using h
  · refine ⟨mkChunkRight (str "s") (str "p") 0 (str "t") [mBig], ?_, ?_⟩
    · rw [chunkConversation_convBig]
      exact List.mem_singleton.mpr rfl
    · rw [show (mkChunkRight (str "s") (str "p") 0 (str "t") [mBig]).content =
          trimRightStr (renderAll [mBig]) from rfl, convBig_content_length]
      omega

/-- Witness for claim C10: the bound applied to the one-message
conversation `convW`. -/
theorem chunk_size_not_hard_bound_witness :
    mkChunkOf (str "s") (str "p") 0 (str "t") [⟨.user, str "hi", str "t"⟩] ∈
        chunkConversation convW 2000 (str "Z") ∧
      (mkChunkOf (str "s") (str "p") 0 (str "t")
          [⟨.user, str "hi", str "t"⟩]).content.length ≤
        max 2000 (maxRendered convW.messages) :=
  ⟨by decide,
   chunk_size_not_hard_bound.1 convW 2000 (str "Z") _ (by decide)⟩

theorem mget_mset_ne (cp : List (Str × Nat)) (fp k : Str) (t : Nat)
    (h : k ≠ fp) : mget (mset cp fp t) k = mget cp k := by
  induction cp with
  | nil => simp [mset, mget, Ne.symm h]
  | cons kv rest ih =>
    rcases kv with ⟨k', v⟩
    by_cases hk : k' = fp
    · subst hk
      simp [mset, mget, Ne.symm h]
    · simp only [mset, if_neg hk, mget]
      by_cases hkk : k' = k
      · simp [hkk]
      · simp [hkk, ih]

/-- The per-file step touches no checkpoint entry other than its own
file's. -/
theorem processFile_checkpoint (env : IndexEnv) (acc : (Nat × Nat) × DBState)
    (g : Str) (m : Nat) :
    (processFile env acc (g, m)).2.checkpoint = acc.2.checkpoint ∨
    ∃ t, (processFile env acc (g, m)).2.checkpoint = mset acc.2.checkpoint g t := by
  cases hp : env.parseConv g with
  | error e => left; simp [processFile, hp]
  | ok o =>
    cases o with
    | none => left; simp [processFile, hp]
    | some conversation =>
      by_cases hc : chunkConversation conversation 2000 env.nowIso = []
      · left; simp [processFile, hp, hc]
      · cases he : env.embedTexts
            ((chunkConversation conversation 2000 env.nowIso).map
              (fun c => c.content)) with
        | error e => left; simp [processFile, hp, hc, he]
        | ok v => right; exact ⟨m, by simp [processFile, hp, hc, he]⟩

/-- Folding the per-file step over files not containing `fp` leaves `fp`'s
checkpoint entry unchanged. -/
theorem foldl_mget_untouched (env : IndexEnv) :
    ∀ (l : List (Str × Nat)) (acc : (Nat × Nat) × DBState) (fp : Str),
      fp ∉ l.map Prod.fst →
      mget ((l.foldl (processFile env) acc).2.checkpoint) fp =
        mget acc.2.checkpoint fp := by
  intro l
  induction l with
  | nil => intro acc fp _; rfl
  | cons g gs ih =>
    intro acc fp h
    rcases g with ⟨gf, gm⟩
    simp only [List.map_cons, List.mem_cons, not_or] at h
    rw [List.foldl_cons, ih _ fp h.2]
    rcases processFile_checkpoint env acc gf gm with hsame | ⟨t, hset⟩
    · rw [hsame]
    · rw [hset, mget_mset_ne _ _ _ _ h.1]

/-- Claim C1: when the per-file step of a full run fails on a file, the
error is reported through the logging collaborator, the file is counted as
processed, the run continues with the remaining files (the fold proceeds
from the incremented accumulator) with the `added` count, table and
checkpoint unchanged, and the failed file's checkpoint entry is unchanged
at the end of the run, so the same selection test applies on the next
run. -/
theorem indexAll_per_file_failure (env : IndexEnv)
    (acc : (Nat × Nat) × DBState) (fp : Str) (m : Nat)
    (rest : List (Str × Nat)) (h : failsAt env fp) :
    ∃ newLogs : List LogEntry,
      LogEntry.errMsg fp ∈ newLogs ∧
      ((fp, m) :: rest).foldl (processFile env) acc =
        rest.foldl (processFile env)
          ((acc.1.1 + 1, acc.1.2),
            { acc.2 with logs := acc.2.logs ++ newLogs }) ∧
      (fp ∉ rest.map Prod.fst →
        mget (((fp, m) :: rest).foldl (processFile env) acc).2.checkpoint fp =
          mget acc.2.checkpoint fp) := by
  have hstep : ∃ newLogs : List LogEntry,
      LogEntry.errMsg fp ∈ newLogs ∧
      processFile env acc (fp, m) =
        ((acc.1.1 + 1, acc.1.2),
          { acc.2 with logs := acc.2.logs ++ newLogs }) := by
    rcases h with ⟨e, he⟩ | ⟨conversation, hc, hne, e, hee⟩
    · exact ⟨[.errMsg fp], by simp, by simp [processFile, he]⟩
    · refine ⟨[.embeddingMsg fp, .errMsg fp], by simp, ?_⟩
      simp [processFile, hc, hne, hee]
  obtain ⟨newLogs, hmem, hstep⟩ := hstep
  refine ⟨newLogs, hmem, ?_, ?_⟩
  · rw [List.foldl_cons, hstep]
  · intro hrest
    rw [List.foldl_cons, hstep, foldl_mget_untouched env rest _ fp hrest]

/-- Witness for claim C1: the failure step applied to a concrete
environment whose single file fails to parse. -/
theorem indexAll_per_file_failure_witness :
    ∃ newLogs : List LogEntry,
      LogEntry.errMsg (str "a") ∈ newLogs ∧
      ([(str "a", 5)]).foldl (processFile envFail) ((0, 0), st0) =
        ([] : List (Str × Nat)).foldl (processFile envFail)
          ((0 + 1, 0), { st0 with logs := st0.logs ++ newLogs }) ∧
      (str "a" ∉ ([] : List (Str × Nat)).map Prod.fst →
        mget (([(str "a", 5)]).foldl (processFile envFail)
            ((0, 0), st0)).2.checkpoint (str "a") =
          mget st0.checkpoint (str "a")) :=
  indexAll_per_file_failure envFail ((0, 0), st0) (str "a") 5 []
    (Or.inl ⟨str "boom", rfl⟩)

/-- Claim C2 (amended): a file enumerated by a full run is selected for
processing iff `force` is set or the checkpoint does not record a
*non-zero* last-modified time at least its current modification time; a
recorded time of `0` is falsy in the source's skip test
(`lastIndexed && lastIndexed >= stat.mtimeMs`), so such a file is
reprocessed even when unmodified.  Skipped files never enter the
processing fold, so they are not parsed or re-embedded and leave the
counters unchanged. -/
theorem indexAll_skip_condition (env : IndexEnv) (cp : List (Str × Nat))
    (force : Bool) (fp : Str) (hfp : fp ∈ env.files) :
    fp ∈ (filesToIndex env cp force).map Prod.fst ↔
      (force = true ∨
        ¬∃ t, mget cp fp = some t ∧ t ≠ 0 ∧ env.mtimeMs fp ≤ t) := by
  unfold filesToIndex
  rw [List.map_map]
  have hid : (Prod.fst ∘ fun fp => (fp, env.mtimeMs fp)) = id := rfl
  rw [hid, List.map_id, List.mem_filter]
  simp only [hfp, true_and]
  rw [Bool.not_eq_true']
  cases force with
  | true => simp [skipFile]
  | false =>
    cases hli : mget cp fp with
    | none => simp [skipFile]
    | some t =>
      simp only [skipFile, Bool.not_false, Bool.true_and, Bool.and_eq_false_iff,
        decide_eq_false_iff_not, not_not, Option.some.injEq]
      constructor
      · rintro (h0 | hlt)
        · exact Or.inr (fun ⟨t', ht', hne, _⟩ => hne (ht' ▸ h0))
        · exact Or.inr (fun ⟨t', ht', _, hle⟩ => hlt (ht' ▸ hle))
      · intro h
        rcases h with h | h
        · simp at h
        · by_cases h0 : t = 0
          · exact Or.inl h0
          · exact Or.inr (fun hle => h ⟨t, rfl, h0, hle⟩)

/-- Witness for claim C2: the selection test applied to the concrete
environment `envNull` with an empty checkpoint. -/
theorem indexAll_skip_condition_witness :
    str "a" ∈ (filesToIndex envNull [] false).map Prod.fst ↔
      (false = true ∨
        ¬∃ t, mget [] (str "a") = some t ∧ t ≠ 0 ∧
          envNull.mtimeMs (str "a") ≤ t) :=
  indexAll_skip_condition envNull [] false (str "a") (by decide)

/-- Counterexample to claim C2 as stated: with `force = false` the
checkpoint records `0 ≥ 0 =` current mtime, so the claim requires the file
to be skipped — but `0` is falsy in `lastIndexed && lastIndexed >= ...`,
so the file is selected and processed (`processed = 1`). -/
theorem indexAll_zero_checkpoint_not_skipped :
    mget stZero.checkpoint (str "a") = some 0 ∧
    envZero.mtimeMs (str "a") ≤ 0 ∧
    (filesToIndex envZero stZero.checkpoint false).map Prod.fst = [str "a"] ∧
    (indexAll envZero stZero false).1 = (1, 0) := by decide

/-- Claim C4 (amended): a file that parses to zero qualifying messages —
`parseConversation` returns `null`, or the conversation chunks to nothing —
is counted as processed with zero segments added and is not an error, but
*no checkpoint entry is recorded for it* (neither by the full-run step nor
by `indexFile`), so a subsequent non-forced run selects it again. -/
theorem zero_message_file_no_checkpoint :
    (∀ (env : IndexEnv) (acc : (Nat × Nat) × DBState) (fp : Str) (m : Nat),
      (env.parseConv fp = .ok none ∨
        ∃ conversation, env.parseConv fp = .ok (some conversation) ∧
          chunkConversation conversation 2000 env.nowIso = []) →
      processFile env acc (fp, m) = ((acc.1.1 + 1, acc.1.2), acc.2))
    ∧ (∀ (env : IndexEnv) (st : DBState) (fp : Str),
      (env.parseConv fp = .ok none ∨
        ∃ conversation, env.parseConv fp = .ok (some conversation) ∧
          chunkConversation conversation 2000 env.nowIso = []) →
      indexFile env st fp = ((1, 0), st)) := by
  constructor
  · intro env acc fp m h
    rcases h with h | ⟨conversation, hc, hchunks⟩
    · simp [processFile, h]
    · simp [processFile, hc, hchunks]
  · intro env st fp h
    rcases h with h | ⟨conversation, hc, hchunks⟩
    · simp [indexFile, h]
    · simp [indexFile, hc, hchunks]

/-- Witness for claim C4: the zero-message step applied to the concrete
environment `envNull`. -/
theorem zero_message_file_no_checkpoint_witness :
    processFile envNull ((0, 0), st0) (str "a", 5) = ((0 + 1, 0), st0) ∧
    indexFile envNull st0 (str "a") = ((1, 0), st0) :=
  ⟨zero_message_file_no_checkpoint.1 envNull ((0, 0), st0) (str "a") 5
      (Or.inl rfl),
   zero_message_file_no_checkpoint.2 envNull st0 (str "a") (Or.inl rfl)⟩

/-- Counterexample to claim C4 as stated: after a full run over a file
with zero qualifying messages, the run reports it processed, but no
checkpoint entry exists for it and the next non-forced run selects it
again — the claim said a checkpoint entry is recorded and the file is
subsequently skipped. -/
theorem zero_message_checkpoint_counterexample :
    (indexAll envNull st0 false).1 = (1, 0) ∧
    mget (indexAll envNull st0 false).2.checkpoint (str "a") = none ∧
    (filesToIndex envNull
        (indexAll envNull st0 false).2.checkpoint false).map Prod.fst =
      [str "a"] := by decide

/-- Claim C5 (amended): a missing or unreadable file given to `indexFile`
does not crash — the exception is caught, reported through the logging
collaborator, and the call returns `{processed: 1, added: 0}` with the
checkpoint and table unchanged.  This return value is *not* a distinct
error outcome: it is the same value a successful run returning zero
segments produces. -/
theorem indexFile_error_outcome (env : IndexEnv) (st : DBState) (fp : Str)
    (h : ∃ e, env.parseConv fp = .error e) :
    indexFile env st fp =
      ((1, 0), { st with logs := st.logs ++ [.errMsg fp] }) := by
  obtain ⟨e, he⟩ := h
  simp [indexFile, he]

/-- Witness for claim C5: the error path of `indexFile` on the concrete
failing environment. -/
theorem indexFile_error_outcome_witness :
    indexFile envFail st0 (str "a") =
      ((1, 0), { st0 with logs := st0.logs ++ [.errMsg (str "a")] }) :=
  indexFile_error_outcome envFail st0 (str "a") ⟨str "boom", rfl⟩

/-- Counterexample to claim C5 as stated: the value returned to the caller
for an unreadable file equals the value returned for a successfully read
file with zero qualifying messages — there is no distinct error outcome in
the returned stats. -/
theorem indexFile_error_indistinguishable :
    (indexFile envFail st0 (str "a")).1 = (1, 0) ∧
    (indexFile envNull st0 (str "a")).1 = (1, 0) ∧
    (indexFile envFail st0 (str "a")).1 =
      (indexFile envNull st0 (str "a")).1 := by decide

theorem projectFiltered_sublist (rows : List Row) (project : Option Str) :
    (projectFiltered rows project).Sublist rows := by
  cases project with
  | none => exact List.Sublist.refl _
  | some p =>
    by_cases hp : p = []
    · simp [projectFiltered, hp]
    · rw [projectFiltered, if_neg hp]
      exact List.filter_sublist _

theorem dateFiltered_sublist (env : SearchEnv) (rows : List Row)
    (dateRange : Option Str) :
    (dateFiltered env rows dateRange).Sublist rows := by
  cases dateRange with
  | none => exact List.Sublist.refl _
  | some dr =>
    by_cases hdr : dr = []
    · simp [dateFiltered, hdr]
    · rw [dateFiltered, if_neg hdr]
      cases parseDateRange env.ops env.now dr with
      | none => exact List.Sublist.refl _
      | some se => exact List.filter_sublist _

theorem searchFiltered_sublist (env : SearchEnv) (rows : List Row)
    (opts : SearchOptions) : (searchFiltered env rows opts).Sublist rows :=
  (dateFiltered_sublist env _ _).trans (projectFiltered_sublist rows _)

/-- Claim C7: `search` returns at most `limit` results; with
`sortBy = "recency"` the filtered candidates are re-sorted by timestamp
descending (a permutation of the filtered rows, pairwise newest-first)
before truncation; with `sortBy = "relevance"` the similarity order of the
nearest-neighbour rows is preserved (the output is a sublist of the rows
in their given order).  Concretely, recency ordering returns the newest
matching row first even though the oldest row has the better similarity
rank. -/
theorem search_sort_truncate :
    (∀ (env : SearchEnv) (rows : List Row) (opts : SearchOptions),
      (search env rows opts).length ≤ opts.limit)
    ∧ (∀ (env : SearchEnv) (rows : List Row) (opts : SearchOptions),
        opts.sortBy = .recency →
        (sortRecency env (searchFiltered env rows opts)).Perm
            (searchFiltered env rows opts)
        ∧ (sortRecency env (searchFiltered env rows opts)).Pairwise
            (fun a b => tsKey env b ≤ tsKey env a)
        ∧ search env rows opts =
            ((sortRecency env (searchFiltered env rows opts)).take
              opts.limit).map toResult)
    ∧ (∀ (env : SearchEnv) (rows : List Row) (opts : SearchOptions),
        opts.sortBy = .relevance →
        search env rows opts =
          ((searchFiltered env rows opts).take opts.limit).map toResult
        ∧ (search env rows opts).Sublist (rows.map toResult))
    ∧ (search envScn7 [rowOld, rowNew] optsRec).map (fun r => r.content) =
        [str "new", str "old"] := by
  refine ⟨?_, ?_, ?_, ?_⟩
  · intro env rows opts
    simp only [search, List.length_map, List.length_take]
    exact min_le_left _ _
  · intro env rows opts h
    refine ⟨List.mergeSort_perm _ _, ?_, ?_⟩
    · have hs := @List.sorted_mergeSort Row
        (fun a b : Row => decide (tsKey env b ≤ tsKey env a))
        (fun a b c hab hbc => by
          simp only [decide_eq_true_eq] at hab hbc ⊢
          omega)
        (fun a b => by
          simp only [Bool.or_eq_true, decide_eq_true_eq]
          omega)
        (searchFiltered env rows opts)
      exact hs.imp (fun hab => by simpa using hab)
    · simp only [search, h]
  · intro env rows opts h
    constructor
    · simp only [search, h]
    · simp only [search, h]
      exact ((List.take_sublist _ _).trans
        (searchFiltered_sublist env rows opts)).map toResult
  · have hms : sortRecency envScn7 [rowOld, rowNew] = [rowNew, rowOld] := by
      simp [sortRecency, List.mergeSort, tsKey, envScn7, rowOld, rowNew, str]
    have hsearch : search envScn7 [rowOld, rowNew] optsRec =
        [toResult rowNew, toResult rowOld] := by
      rw [search]
      show ((sortRecency envScn7
          (searchFiltered envScn7 [rowOld, rowNew] optsRec)).take
            optsRec.limit).map toResult = _
      rw [show searchFiltered envScn7 [rowOld, rowNew] optsRec =
          [rowOld, rowNew] from rfl, hms]
      rfl
    rw [hsearch]
    rfl

/-- Witness for claim C7: the recency conjunct applied to the concrete
scenario store. -/
theorem search_sort_truncate_witness :
    (sortRecency envScn7 (searchFiltered envScn7 [rowOld, rowNew] optsRec)).Perm
        (searchFiltered envScn7 [rowOld, rowNew] optsRec)
    ∧ (sortRecency envScn7
        (searchFiltered envScn7 [rowOld, rowNew] optsRec)).Pairwise
        (fun a b => tsKey envScn7 b ≤ tsKey envScn7 a)
    ∧ search envScn7 [rowOld, rowNew] optsRec =
        ((sortRecency envScn7
          (searchFiltered envScn7 [rowOld, rowNew] optsRec)).take
            optsRec.limit).map toResult :=
  search_sort_truncate.2.1 envScn7 [rowOld, rowNew] optsRec rfl

theorem isWs_cases {c : Char} (h : isWs c = true) :
    c = ' ' ∨ c = '\t' ∨ c = '\n' ∨ c = '\r' ∨ c = Char.ofNat 11 ∨
      c = Char.ofNat 12 := by
  simp only [isWs, Bool.or_eq_true, decide_eq_true_eq] at h
  tauto

theorem isDigitCh_mem {c : Char} (h : isDigitCh c = true) :
    c ∈ str "0123456789" :=
  List.mem_of_elem_eq_true h

theorem digit_str_eq :
    str "0123456789" = ['0', '1', '2', '3', '4', '5', '6', '7', '8', '9'] := by
  decide

theorem not_ws_of_digit {c : Char} (h : isDigitCh c = true) : isWs c = false := by
  have hm := isDigitCh_mem h
  rw [digit_str_eq] at hm
  simp only [List.mem_cons, List.not_mem_nil, or_false] at hm
  rcases hm with h | h | h | h | h | h | h | h | h | h <;> subst h <;> decide

theorem not_digit_of_ws {c : Char} (h : isWs c = true) : isDigitCh c = false := by
  rcases isWs_cases h with h | h | h | h | h | h <;> subst h <;> decide

theorem toLower_fix_of_ws {c : Char} (h : isWs c = true) :
    Char.toLower c = c := by
  rcases isWs_cases h with h | h | h | h | h | h <;> subst h <;> decide

theorem toLower_fix_of_digit {c : Char} (h : isDigitCh c = true) :
    Char.toLower c = c := by
  have hm := isDigitCh_mem h
  rw [digit_str_eq] at hm
  simp only [List.mem_cons, List.not_mem_nil, or_false] at hm
  rcases hm with h | h | h | h | h | h | h | h | h | h <;> subst h <;> decide

theorem not_ws_of_toLower_d {c : Char} (h : Char.toLower c = 'd') :
    isWs c = false := by
  by_contra hws
  rw [Bool.not_eq_false] at hws
  rw [toLower_fix_of_ws hws] at h
  subst h
  exact absurd hws (by decide)

theorem not_digit_of_toLower_d {c : Char} (h : Char.toLower c = 'd') :
    isDigitCh c = false := by
  by_contra hd
  rw [Bool.not_eq_false] at hd
  rw [toLower_fix_of_digit hd] at h
  subst h
  exact absurd hd (by decide)

theorem dropWhile_append_all {p : Char → Bool} (w x : Str)
    (hw : ∀ c ∈ w, p c = true) :
    List.dropWhile p (w ++ x) = List.dropWhile p x := by
  induction w with
  | nil => simp
  | cons c t ih =>
    rw [List.cons_append, List.dropWhile_cons, if_pos (hw c (by simp))]
    exact ih (fun d hd => hw d (by simp [hd]))

theorem takeWhile_append_all {p : Char → Bool} (w x : Str)
    (hw : ∀ c ∈ w, p c = true) :
    List.takeWhile p (w ++ x) = w ++ List.takeWhile p x := by
  induction w with
  | nil => simp
  | cons c t ih =>
    rw [List.cons_append, List.takeWhile_cons, if_pos (hw c (by simp))]
    rw [ih (fun d hd => hw d (by simp [hd])), List.cons_append]

theorem stripLitCI_decomp :
    ∀ (lit s s1 : Str), stripLitCI lit s = some s1 →
      ∃ pfx, s = pfx ++ s1 ∧ toLowerStr pfx = lit := by
  intro lit
  induction lit with
  | nil =>
    intro s s1 h
    simp only [stripLitCI, Option.some.injEq] at h
    exact ⟨[], by simp [h], rfl⟩
  | cons c cs ih =>
    intro s s1 h
    cases s with
    | nil => simp [stripLitCI] at h
    | cons x xs =>
      rw [show stripLitCI (c :: cs) (x :: xs) =
          (if Char.toLower x = c then stripLitCI cs xs else none) from rfl] at h
      by_cases hx : Char.toLower x = c
      · rw [if_pos hx] at h
        obtain ⟨pfx, hs, hl⟩ := ih xs s1 h
        refine ⟨x :: pfx, by simp [hs], ?_⟩
        simp only [toLowerStr, List.map_cons]
        simp only [toLowerStr] at hl
        rw [hx, hl]
      · rw [if_neg hx] at h
        exact absurd h (by simp)

theorem stripLitCI_of_lower :
    ∀ (pfx rest : Str), stripLitCI (toLowerStr pfx) (pfx ++ rest) = some rest := by
  intro pfx
  induction pfx with
  | nil => intro rest; rfl
  | cons c t ih =>
    intro rest
    show stripLitCI (Char.toLower c :: toLowerStr t) (c :: (t ++ rest)) = some rest
    simp only [stripLitCI, if_pos rfl]
    exact ih rest

/-- A successful anchored match decomposes the string into the literal
`last` (case-insensitively), optional whitespace, a non-empty digit run,
optional whitespace, the literal `day` (case-insensitively) and a
remainder. -/
theorem matchDaysAt_decomp (s : Str) (n : Nat) (h : matchDaysAt s = some n) :
    ∃ l4 w1 ds w2 d3 post,
      s = l4 ++ (w1 ++ (ds ++ (w2 ++ (d3 ++ post)))) ∧
      toLowerStr l4 = str "last" ∧ (∀ c ∈ w1, isWs c = true) ∧
      ds ≠ [] ∧ (∀ c ∈ ds, isDigitCh c = true) ∧
      (∀ c ∈ w2, isWs c = true) ∧ toLowerStr d3 = str "day" := by
  unfold matchDaysAt at h
  cases h1 : stripLitCI (str "last") s with
  | none => rw [h1] at h; exact absurd h (by simp)
  | some s1 =>
    rw [h1] at h
    simp only at h
    by_cases hd : (s1.dropWhile isWs).takeWhile isDigitCh = []
    · rw [if_pos hd] at h
      exact absurd h (by simp)
    · rw [if_neg hd] at h
      cases h2 : stripLitCI (str "day")
          (((s1.dropWhile isWs).dropWhile isDigitCh).dropWhile isWs) with
      | none => rw [h2] at h; exact absurd h (by simp)
      | some post =>
        obtain ⟨l4, hsl4, hll4⟩ := stripLitCI_decomp _ _ _ h1
        obtain ⟨d3, hsd3, hld3⟩ := stripLitCI_decomp _ _ _ h2
        refine ⟨l4, s1.takeWhile isWs, (s1.dropWhile isWs).takeWhile isDigitCh,
          ((s1.dropWhile isWs).dropWhile isDigitCh).takeWhile isWs, d3, post,
          ?_, hll4, ?_, hd, ?_, ?_, hld3⟩
        · rw [hsl4]
          congr 1
          conv_lhs => rw [← List.takeWhile_append_dropWhile isWs s1]
          congr 1
          conv_lhs =>
            rw [← List.takeWhile_append_dropWhile isDigitCh (s1.dropWhile isWs)]
          congr 1
          conv_lhs =>
            rw [← List.takeWhile_append_dropWhile isWs
              ((s1.dropWhile isWs).dropWhile isDigitCh)]
          congr 1
        · intro c hc; exact List.mem_takeWhile_imp hc
        · intro c hc; exact List.mem_takeWhile_imp hc
        · intro c hc; exact List.mem_takeWhile_imp hc

/-- Conversely, any such decomposition makes the anchored match succeed. -/
theorem matchDaysAt_parts (l4 w1 ds w2 d3 post : Str)
    (hl4 : toLowerStr l4 = str "last") (hw1 : ∀ c ∈ w1, isWs c = true)
    (hds : ds ≠ []) (hdig : ∀ c ∈ ds, isDigitCh c = true)
    (hw2 : ∀ c ∈ w2, isWs c = true) (hd3 : toLowerStr d3 = str "day") :
    (matchDaysAt (l4 ++ (w1 ++ (ds ++ (w2 ++ (d3 ++ post)))))).isSome = true := by
  obtain ⟨x0, d3t, hx0, hlx0⟩ :
      ∃ x0 d3t, d3 = x0 :: d3t ∧ Char.toLower x0 = 'd' := by
    cases d3 with
    | nil => exact absurd hd3 (by decide)
    | cons x0 d3t =>
      refine ⟨x0, d3t, rfl, ?_⟩
      rw [show str "day" = 'd' :: str "ay" from by decide] at hd3
      simp only [toLowerStr, List.map_cons, List.cons.injEq] at hd3
      exact hd3.1
  have hstrip : stripLitCI (str "last")
      (l4 ++ (w1 ++ (ds ++ (w2 ++ (d3 ++ post))))) =
      some (w1 ++ (ds ++ (w2 ++ (d3 ++ post)))) := by
    rw [← hl4]
    exact stripLitCI_of_lower l4 _
  have h1 : (w1 ++ (ds ++ (w2 ++ (d3 ++ post)))).dropWhile isWs =
      ds ++ (w2 ++ (d3 ++ post)) := by
    rw [dropWhile_append_all w1 _ hw1]
    cases ds with
    | nil => exact absurd rfl hds
    | cons d dt =>
      rw [List.cons_append, List.dropWhile_cons,
        if_neg (by rw [not_ws_of_digit (hdig d (by simp))]; simp)]
  have hXtake : (w2 ++ (d3 ++ post)).takeWhile isDigitCh = [] := by
    cases w2 with
    | cons c t =>
      rw [List.cons_append, List.takeWhile_cons,
        if_neg (by rw [not_digit_of_ws (hw2 c (by simp))]; simp)]
    | nil =>
      rw [List.nil_append, hx0, List.cons_append, List.takeWhile_cons,
        if_neg (by rw [not_digit_of_toLower_d hlx0]; simp)]
  have hXdrop : (w2 ++ (d3 ++ post)).dropWhile isDigitCh =
      w2 ++ (d3 ++ post) := by
    cases w2 with
    | cons c t =>
      rw [List.cons_append, List.dropWhile_cons,
        if_neg (by rw [not_digit_of_ws (hw2 c (by simp))]; simp)]
    | nil =>
      rw [List.nil_append, hx0, List.cons_append, List.dropWhile_cons,
        if_neg (by rw [not_digit_of_toLower_d hlx0]; simp)]
  have h2 : (ds ++ (w2 ++ (d3 ++ post))).takeWhile isDigitCh = ds := by
    rw [takeWhile_append_all ds _ hdig, hXtake, List.append_nil]
  have h3 : (ds ++ (w2 ++ (d3 ++ post))).dropWhile isDigitCh =
      w2 ++ (d3 ++ post) := by
    rw [dropWhile_append_all ds _ hdig, hXdrop]
  have h4 : (w2 ++ (d3 ++ post)).dropWhile isWs = d3 ++ post := by
    rw [dropWhile_append_all w2 _ hw2, hx0, List.cons_append,
      List.dropWhile_cons, if_neg (by rw [not_ws_of_toLower_d hlx0]; simp)]
  have h5 : stripLitCI (str "day") (d3 ++ post) = some post := by
    rw [← hd3]
    exact stripLitCI_of_lower d3 post
  unfold matchDaysAt
  rw [hstrip]
  simp only
  rw [h1, h2, h3]
  rw [if_neg hds, h4, h5]
  rfl

theorem findDaysMatch_isSome_of (pre tail : Str)
    (h : (matchDaysAt tail).isSome = true) :
    (findDaysMatch (pre ++ tail)).isSome = true := by
  induction pre with
  | nil =>
    rw [List.nil_append]
    cases tail with
    | nil => rw [show matchDaysAt [] = none from rfl] at h; simp at h
    | cons c t =>
      rw [findDaysMatch]
      cases hm : matchDaysAt (c :: t) with
      | some n => simp
      | none => rw [hm] at h; simp at h
  | cons c pre ih =>
    rw [List.cons_append, findDaysMatch]
    cases hm : matchDaysAt (c :: (pre ++ tail)) with
    | some n => simp
    | none => simpa using ih

theorem findDaysMatch_decomp :
    ∀ (s : Str), (findDaysMatch s).isSome = true →
      ∃ pre tail, s = pre ++ tail ∧ (matchDaysAt tail).isSome = true := by
  intro s
  induction s with
  | nil => intro h; simp [findDaysMatch] at h
  | cons c t ih =>
    intro h
    rw [findDaysMatch] at h
    cases hm : matchDaysAt (c :: t) with
    | some n => exact ⟨[], c :: t, rfl, by rw [hm]; rfl⟩
    | none =>
      rw [hm] at h
      simp only at h
      obtain ⟨pre, tail, hs, hmt⟩ := ih h
      exact ⟨c :: pre, tail, by rw [List.cons_append, hs], hmt⟩

theorem findDaysMatch_iff (s : Str) :
    (findDaysMatch s).isSome = true ↔ daysPatternProp s := by
  constructor
  · intro h
    obtain ⟨pre, tail, hs, hmt⟩ := findDaysMatch_decomp s h
    obtain ⟨n, hn⟩ := Option.isSome_iff_exists.mp hmt
    obtain ⟨l4, w1, ds, w2, d3, post, htail, hl4, hw1, hds, hdig, hw2, hd3⟩ :=
      matchDaysAt_decomp tail n hn
    exact ⟨pre, l4, w1, ds, w2, d3, post, by rw [hs, htail], hl4, hw1, hds,
      hdig, hw2, hd3⟩
  · rintro ⟨pre, l4, w1, ds, w2, d3, post, hs, hl4, hw1, hds, hdig, hw2, hd3⟩
    rw [hs]
    exact findDaysMatch_isSome_of pre _
      (matchDaysAt_parts l4 w1 ds w2 d3 post hl4 hw1 hds hdig hw2 hd3)

/-- Claim C8 (amended): the date-range filter recognises exactly (i) the
case-insensitive tokens `today`, `yesterday`, `last_week`/`last week`/
`week`, `last_month`/`last month`/`month`, and (ii) any string
*containing* the case-insensitive pattern `last` + optional whitespace +
a digit run `N` (`N ≥ 0` — `last 0 days` is accepted) + optional
whitespace + `day(s)`; every recognised token resolves to an interval
`[startOfDay(…), endOfDay(…)]` anchored on the current moment, and any
other token makes the date filter a no-op (no candidates removed) rather
than an error. -/
theorem parseDateRange_token_grammar :
    (∀ (ops : DateOps) (now : Int) (s : Str),
      (parseDateRange ops now s).isSome = true ↔
        (toLowerStr s ∈ dateTokens ∨ daysPatternProp s))
    ∧ (∀ (ops : DateOps) (now : Int) (s : Str) (r : Int × Int),
        parseDateRange ops now s = some r →
        ∃ a b, r = (ops.startOfDay a, ops.endOfDay b))
    ∧ (∀ (env : SearchEnv) (rows : List Row) (dr : Str),
        parseDateRange env.ops env.now dr = none →
        dateFiltered env rows (some dr) = rows) := by
  refine ⟨?_, ?_, ?_⟩
  · intro ops now s
    simp only [parseDateRange]
    by_cases h1 : toLowerStr s = str "today"
    · rw [if_pos h1]
      simp [dateTokens, h1]
    · rw [if_neg h1]
      by_cases h2 : toLowerStr s = str "yesterday"
      · rw [if_pos h2]
        simp [dateTokens, h2]
      · rw [if_neg h2]
        by_cases h3 : toLowerStr s = str "last_week" ∨
            toLowerStr s = str "last week" ∨ toLowerStr s = str "week"
        · rw [if_pos h3]
          constructor
          · intro _
            left
            rcases h3 with h | h | h <;> simp [dateTokens, h]
          · intro _
            rfl
        · rw [if_neg h3]
          by_cases h4 : toLowerStr s = str "last_month" ∨
              toLowerStr s = str "last month" ∨ toLowerStr s = str "month"
          · rw [if_pos h4]
            constructor
            · intro _
              left
              rcases h4 with h | h | h <;> simp [dateTokens, h]
            · intro _
              rfl
          · rw [if_neg h4]
            push_neg at h3 h4
            have hmem : toLowerStr s ∉ dateTokens := by
              simp only [dateTokens, List.mem_cons, List.not_mem_nil, or_false]
              push_neg
              exact ⟨h1, h2, h3.1, h3.2.1, h3.2.2, h4.1, h4.2.1, h4.2.2⟩
            cases hm : findDaysMatch s with
            | some days =>
              constructor
              · intro _
                exact Or.inr ((findDaysMatch_iff s).mp (by rw [hm]; rfl))
              · intro _
                rfl
            | none =>
              constructor
              · intro h
                exact absurd h (by simp)
              · rintro (h | h)
                · exact absurd h hmem
                · have hp := (findDaysMatch_iff s).mpr h
                  rw [hm] at hp
                  exact absurd hp (by simp)
  · intro ops now s r h
    simp only [parseDateRange] at h
    split_ifs at h with h1 h2 h3 h4
    · exact ⟨now, now, (Option.some.inj h).symm⟩
    · exact ⟨ops.subDays now 1, ops.subDays now 1, (Option.some.inj h).symm⟩
    · exact ⟨ops.subDays now 7, now, (Option.some.inj h).symm⟩
    · exact ⟨ops.subMonths now 1, now, (Option.some.inj h).symm⟩
    · cases hm : findDaysMatch s with
      | some days =>
        rw [hm] at h
        exact ⟨ops.subDays now days, now, (Option.some.inj h).symm⟩
      | none =>
        rw [hm] at h
        exact absurd h (by simp)
  · intro env rows dr h
    by_cases hdr : dr = []
    · simp [dateFiltered, hdr]
    · simp [dateFiltered, hdr, h]

/-- Witness for claim C8: `today` resolves to a
`[startOfDay now, endOfDay now]` interval, and an unrecognised token
leaves the candidate rows untouched. -/
theorem parseDateRange_token_grammar_witness :
    (∃ a b, (((0 : Int), (0 : Int)) : Int × Int) =
      (envScn7.ops.startOfDay a, envScn7.ops.endOfDay b)) ∧
    dateFiltered envScn7 [rowOld] (some (str "nonsense")) = [rowOld] :=
  ⟨parseDateRange_token_grammar.2.1 envScn7.ops 0 (str "today")
      ((0 : Int), (0 : Int)) (by decide),
   parseDateRange_token_grammar.2.2 envScn7 [rowOld] (str "nonsense")
      (by decide)⟩

/-- Counterexample to claim C8 as stated: the claim limits the pattern to
`last N days` with `N` a *positive* integer and says every other token is
skipped, but the source's regex `/last\s*(\d+)\s*days?/i` accepts `N = 0`
and matches anywhere inside the token, so `"last 0 days"` and
`"abc last 2 days xyz"` are both recognised rather than skipped. -/
theorem parseDateRange_last_zero_days :
    (parseDateRange envScn7.ops 0 (str "last 0 days")).isSome = true ∧
    (parseDateRange envScn7.ops 0 (str "abc last 2 days xyz")).isSome = true := by
  constructor <;> decide

/-- Witness for claim C3: the partition characterisation applied to the
one-message conversation `convW`. -/
theorem chunkConversation_no_message_split_witness :
    ∃ blocks : List (List Message),
      blocks.flatten = convW.messages ∧
      (∀ b ∈ blocks, b ≠ []) ∧
      (chunkConversation convW 2000 (str "Z")).map (fun ch => ch.content) =
        blocks.map (fun b => trimStr (renderAll b)) ∧
      (chunkConversation convW 2000 (str "Z")).map (fun ch => ch.chunkIndex) =
        List.range blocks.length :=
  chunkConversation_no_message_split convW 2000 (str "Z")

end Clancey
